import Mathlib

/-!
Verification of the 2048 grid engine (`src/domain.rs`).

The board is an N×N matrix of tile ranks (`0` = empty cell), embedded here
as a `List (List ℕ)` together with a well-formedness predicate `Wf` stating
that the matrix is square.  Cell values are `u8` in the source; saturating
increment is modelled by `satAdd`, which caps at `255`.

`Board::shift_nums_left` is an imperative loop over a line of the grid with
a write cursor `i` and a scan cursor `j`; it is embedded as the tail-recursive
`shiftLoop` over an explicit `ShiftState`.  `Board::shift` dispatches the four
directions onto this routine by reversing lines and/or transposing the grid and
remapping the emitted coordinates, which is reproduced literally in `shift`.

`Board::spawn` draws a uniformly random empty cell and a random rank; the two
random draws are modelled as explicit parameters (`choice`, `drawTwo`) so that
properties quantify over every possible outcome of the randomness.
-/

namespace TFE

/-- The grid shift direction (`Direction` in the source). -/
inductive Direction where
  | Up
  | Down
  | Left
  | Right
  deriving DecidableEq, Repr

/-- Kind of a tile action (`TileActionKind` in the source). -/
inductive TileActionKind where
  | Move
  | Merge
  deriving DecidableEq, Repr

/-- One atomic tile change (`TileAction` in the source).  The source field
`from` is a Lean keyword, so it is called `src` here. -/
structure TileAction where
  kind : TileActionKind
  value : ℕ
  src : ℕ × ℕ
  dst : ℕ × ℕ
  deriving DecidableEq, Repr

/-- `u8::saturating_add`, on ℕ with the `u8` cap. -/
def satAdd (a b : ℕ) : ℕ := min (a + b) 255

/-- Read a cell of a line, `0`-defaulting (in-range reads in the source). -/
def getv (l : List ℕ) (k : ℕ) : ℕ := l.getD k 0

/-- State of the `shift_nums_left` loop: the line being mutated, the write
cursor `i`, and the actions accumulated so far. -/
structure ShiftState where
  row : List ℕ
  i : ℕ
  actions : List TileAction
  deriving Repr

/-- One iteration of the `for j in 1..N` loop body of `shift_nums_left`. -/
def shiftStep (rowIdx : ℕ) (s : ShiftState) (j : ℕ) : ShiftState :=
  let vj := getv s.row j
  if vj = 0 then s
  else if getv s.row s.i = 0 then
    { row := (s.row.set s.i vj).set j 0
      i := s.i
      actions := s.actions ++ [⟨TileActionKind.Move, vj, (rowIdx, j), (rowIdx, s.i)⟩] }
  else if vj = getv s.row s.i then
    { row := (s.row.set s.i (satAdd (getv s.row s.i) 1)).set j 0
      i := s.i + 1
      actions := s.actions ++
        [⟨TileActionKind.Merge, satAdd (getv s.row s.i) 1, (rowIdx, j), (rowIdx, s.i)⟩] }
  else if s.i + 1 = j then
    { s with i := s.i + 1 }
  else
    { row := (s.row.set (s.i + 1) vj).set j 0
      i := s.i + 1
      actions := s.actions ++ [⟨TileActionKind.Move, vj, (rowIdx, j), (rowIdx, s.i + 1)⟩] }

/-- Run the loop body of `shift_nums_left` over a list of scan indices. -/
def shiftLoop (rowIdx : ℕ) : List ℕ → ShiftState → ShiftState
  | [], s => s
  | j :: js, s => shiftLoop rowIdx js (shiftStep rowIdx s j)

/-- The scan indices `j, j+1, …, n-1` of the `for j in 1..N` loop. -/
def upFrom (j n : ℕ) : List ℕ := (List.range (n - j)).map (· + j)

/-- `Board::shift_nums_left`: compact one line toward index 0 by 2048 rules,
returning the updated line and the emitted actions. -/
def shift_nums_left (row : List ℕ) (rowIdx : ℕ) : List ℕ × List TileAction :=
  let s := shiftLoop rowIdx (upFrom 1 row.length) ⟨row, 0, []⟩
  (s.row, s.actions)

/-- Shift every line of `m` left, line index `k` onward; actions are
concatenated in line order (the `iter().enumerate().flat_map` of the source). -/
def shiftLinesFrom : ℕ → List (List ℕ) → List (List ℕ) × List TileAction
  | _, [] => ([], [])
  | k, r :: rs =>
    let p := shift_nums_left r k
    let q := shiftLinesFrom (k + 1) rs
    (p.1 :: q.1, p.2 ++ q.2)

/-- Shift every line of `m` left, lines numbered from 0. -/
def shiftLines (m : List (List ℕ)) : List (List ℕ) × List TileAction :=
  shiftLinesFrom 0 m

/-- Read one cell of the board (`Board::get`). -/
def cell (b : List (List ℕ)) (r c : ℕ) : ℕ := getv (b.getD r []) c

/-- The board is a square matrix: every row has length `b.length` (the `N × N`
shape of `Board<N>`). -/
def Wf (b : List (List ℕ)) : Prop := ∀ r ∈ b, r.length = b.length

instance (b : List (List ℕ)) : Decidable (Wf b) :=
  inferInstanceAs (Decidable (∀ r ∈ b, r.length = b.length))

/-- Columns of a square matrix as rows (`self.0.each_mut().map(|row| &mut row[j])`
taken for every `j`). -/
def transposeSq (b : List (List ℕ)) : List (List ℕ) :=
  (List.range b.length).map (fun j => b.map (fun r => getv r j))

/-- Coordinate fix-up for `Direction::Right`: the column index is mirrored. -/
def remapRight (n : ℕ) (a : TileAction) : TileAction :=
  { a with src := (a.src.1, n - 1 - a.src.2), dst := (a.dst.1, n - 1 - a.dst.2) }

/-- Coordinate fix-up for `Direction::Up`: row/column are swapped. -/
def remapUp (a : TileAction) : TileAction :=
  { a with src := (a.src.2, a.src.1), dst := (a.dst.2, a.dst.1) }

/-- Coordinate fix-up for `Direction::Down`: swapped, with the row mirrored. -/
def remapDown (n : ℕ) (a : TileAction) : TileAction :=
  { a with src := (n - 1 - a.src.2, a.src.1), dst := (n - 1 - a.dst.2, a.dst.1) }

/-- `Board::shift`: move the values toward `d` and return the new board
together with the taken actions. -/
def shift (d : Direction) (b : List (List ℕ)) : List (List ℕ) × List TileAction :=
  match d with
  | .Left => shiftLines b
  | .Right =>
    let p := shiftLines (b.map List.reverse)
    (p.1.map List.reverse, p.2.map (remapRight b.length))
  | .Up =>
    let p := shiftLines (transposeSq b)
    (transposeSq p.1, p.2.map remapUp)
  | .Down =>
    let p := shiftLines ((transposeSq b).map List.reverse)
    (transposeSq (p.1.map List.reverse), p.2.map (remapDown b.length))

/-- `Board::is_shiftable`: the early-return scan, as a Boolean. -/
def is_shiftable (b : List (List ℕ)) : Bool :=
  (cell b 0 0 == 0) ||
  ((List.range (b.length - 1)).any fun i =>
    (List.range b.length).any fun j =>
      (cell b (i + 1) j == 0) || (cell b i j == cell b (i + 1) j) ||
      (cell b j (i + 1) == 0) || (cell b j i == cell b j (i + 1)))

/-- `Board::iter_numbers`: the cells row by row. -/
def flat (b : List (List ℕ)) : List ℕ := b.flatten

/-- Flat indices of the empty cells, in iteration order (the
`filter_map(|(i, v)| v.eq(&0).then_some(i))` of `spawn`). -/
def emptyIdxs (b : List (List ℕ)) : List ℕ :=
  (List.range (flat b).length).filter (fun i => (flat b).getD i 0 == 0)

/-- `Board::set`. -/
def setCell (b : List (List ℕ)) (r c v : ℕ) : List (List ℕ) :=
  b.set r ((b.getD r []).set c v)

/-- `Board::spawn`, with the two random draws as explicit parameters: `choice`
selects the element `choice % count` of the list of empty cells (ranging over
all `choice` covers every outcome of the uniform draw), and `drawTwo` is the
90%-probability Boolean deciding rank 1 over rank 2. -/
def spawn (b : List (List ℕ)) (choice : ℕ) (drawTwo : Bool) :
    Option (ℕ × ℕ × ℕ) × List (List ℕ) :=
  let es := emptyIdxs b
  if es.isEmpty then (none, b)
  else
    let idx := getv es (choice % es.length)
    let num := if drawTwo then 1 else 2
    let row := idx / b.length
    let col := idx % b.length
    (some (num, row, col), setCell b row col num)

/-- Number of non-zero cells of a line. -/
def nz (l : List ℕ) : ℕ := l.countP (fun v => v != 0)

/-- Number of non-zero cells of a board. -/
def nzBoard (b : List (List ℕ)) : ℕ := (b.map nz).sum

/-- Number of `Merge` actions in a list. -/
def mergeCount (acts : List TileAction) : ℕ :=
  acts.countP (fun a => a.kind == TileActionKind.Merge)

/-- Row `r` of the board, `[]`-defaulting. -/
def getRow (b : List (List ℕ)) (r : ℕ) : List ℕ := b.getD r []

/-! ### Basic access lemmas -/

theorem getv_set_self (l : List ℕ) {i : ℕ} (a : ℕ) (h : i < l.length) :
    getv (l.set i a) i = a := by
  simp [getv, List.getD_eq_getElem?_getD, List.getElem?_set_self h]

theorem getv_set_ne (l : List ℕ) {i j : ℕ} (a : ℕ) (h : i ≠ j) :
    getv (l.set i a) j = getv l j := by
  simp [getv, List.getD_eq_getElem?_getD, List.getElem?_set_ne h]

theorem getv_of_le (l : List ℕ) {k : ℕ} (h : l.length ≤ k) : getv l k = 0 := by
  simp [getv, List.getD_eq_getElem?_getD, List.getElem?_eq_none h]

theorem getv_eq_getElem (l : List ℕ) (k : ℕ) (h : k < l.length) :
    getv l k = l[k] := by
  simp [getv, List.getD_eq_getElem?_getD, List.getElem?_eq_getElem h]

theorem getv_cons_zero (a : ℕ) (t : List ℕ) : getv (a :: t) 0 = a := rfl

theorem getv_cons_succ (a : ℕ) (t : List ℕ) (k : ℕ) :
    getv (a :: t) (k + 1) = getv t k := rfl

theorem satAdd_one_ne_zero (a : ℕ) : satAdd a 1 ≠ 0 := by
  simp only [satAdd]
  omega

/-- Replacing one entry changes a `countP` by exchanging the old entry's
contribution for the new one's. -/
theorem countP_set_add (p : ℕ → Bool) :
    ∀ (l : List ℕ) (i : ℕ), i < l.length → ∀ v : ℕ,
      (l.set i v).countP p + (if p (getv l i) then 1 else 0)
        = l.countP p + (if p v then 1 else 0) := by
  intro l
  induction l with
  | nil => intro i hi; simp at hi
  | cons a t ih =>
    intro i hi v
    cases i with
    | zero =>
      simp only [List.set_cons_zero, List.countP_cons, getv_cons_zero]
      omega
    | succ i =>
      have hi' : i < t.length := by simpa using hi
      have := ih i hi' v
      simp only [List.set_cons_succ, List.countP_cons, getv_cons_succ]
      omega

/-- `countP_set_add` specialised to the non-zero count. -/
theorem nz_set (l : List ℕ) {i : ℕ} (hi : i < l.length) (v : ℕ) :
    nz (l.set i v) + (if getv l i ≠ 0 then 1 else 0)
      = nz l + (if v ≠ 0 then 1 else 0) := by
  have := countP_set_add (fun x => x != 0) l i hi v
  simpa [nz] using this

/-! ### The `shift_nums_left` loop invariant -/

/-- Invariant of the `shift_nums_left` loop before the iteration for scan
index `j`: `l0` is the original line; `row`, `i`, `as` the current state.
It records the cursor ordering, the zero gap between the cursors, the
untouched scan suffix, the conservation of non-zero cells up to merges, the
shape of every emitted action (including the merge value law w.r.t. the
original line), the value stored at each merge destination, and that no
action means no change. -/
structure LInv (l0 : List ℕ) (rowIdx j : ℕ)
    (row : List ℕ) (i : ℕ) (as : List TileAction) : Prop where
  len : row.length = l0.length
  ilt : i < j
  mid : ∀ k, i < k → k < j → getv row k = 0
  suf : ∀ k, j ≤ k → getv row k = getv l0 k
  cnt : nz row + mergeCount as = nz l0
  acts : ∀ a ∈ as,
    a.src.1 = rowIdx ∧ a.dst.1 = rowIdx ∧ a.dst.2 < a.src.2 ∧ a.src.2 < j ∧
      a.src.2 < l0.length ∧ a.value ≠ 0 ∧
      (a.kind = TileActionKind.Merge →
        a.value = satAdd (getv l0 a.src.2) 1 ∧ getv l0 a.src.2 ≠ 0)
  mdest : ∀ a ∈ as, a.kind = TileActionKind.Merge →
    a.dst.2 < i ∧ getv row a.dst.2 = a.value
  noact : as = [] → row = l0

theorem mergeCount_append_move (as : List TileAction) (v : ℕ) (p q : ℕ × ℕ) :
    mergeCount (as ++ [⟨TileActionKind.Move, v, p, q⟩]) = mergeCount as := by
  simp [mergeCount, List.countP_append]

theorem mergeCount_append_merge (as : List TileAction) (v : ℕ) (p q : ℕ × ℕ) :
    mergeCount (as ++ [⟨TileActionKind.Merge, v, p, q⟩]) = mergeCount as + 1 := by
  simp [mergeCount, List.countP_append]

/-- Skip iteration: the scanned cell is empty. -/
theorem linv_skip {l0 : List ℕ} {rowIdx j : ℕ} {row : List ℕ} {i : ℕ}
    {as : List TileAction} (h0 : getv row j = 0)
    (hI : LInv l0 rowIdx j row i as) : LInv l0 rowIdx (j + 1) row i as := by
  obtain ⟨len, ilt, mid, suf, cnt, acts, mdest, noact⟩ := hI
  refine ⟨len, by omega, ?_, ?_, cnt, ?_, mdest, noact⟩
  · intro k hk1 hk2
    rcases Nat.lt_succ_iff_lt_or_eq.mp hk2 with h | h
    · exact mid k hk1 h
    · rw [h]; exact h0
  · intro k hk; exact suf k (by omega)
  · intro a ha
    obtain ⟨g1, g2, g3, g4, g5, g6, g7⟩ := acts a ha
    exact ⟨g1, g2, g3, by omega, g5, g6, g7⟩

/-- Move-into-gap iteration: the write-cursor cell is empty. -/
theorem linv_move {l0 : List ℕ} {rowIdx j : ℕ} {row : List ℕ} {i : ℕ}
    {as : List TileAction} (hj : j < l0.length)
    (h0 : getv row j ≠ 0) (h1 : getv row i = 0)
    (hI : LInv l0 rowIdx j row i as) :
    LInv l0 rowIdx (j + 1) ((row.set i (getv row j)).set j 0) i
      (as ++ [⟨TileActionKind.Move, getv row j, (rowIdx, j), (rowIdx, i)⟩]) := by
  obtain ⟨len, ilt, mid, suf, cnt, acts, mdest, noact⟩ := hI
  have hjr : j < row.length := by omega
  have hir : i < row.length := by omega
  have hij : i ≠ j := Nat.ne_of_lt ilt
  have hjr2 : j < (row.set i (getv row j)).length := by
    rw [List.length_set]; exact hjr
  refine ⟨by simp [List.length_set, len], by omega, ?_, ?_, ?_, ?_, ?_, ?_⟩
  · intro k hk1 hk2
    rcases Nat.lt_succ_iff_lt_or_eq.mp hk2 with h | h
    · rw [getv_set_ne _ _ (Nat.ne_of_lt h).symm,
        getv_set_ne _ _ (Nat.ne_of_lt hk1)]
      exact mid k hk1 h
    · rw [h]; exact getv_set_self _ _ hjr2
  · intro k hk
    rw [getv_set_ne _ _ (by omega : j ≠ k), getv_set_ne _ _ (by omega : i ≠ k)]
    exact suf k (by omega)
  · have e1 := nz_set row hir (getv row j)
    have e2 := nz_set (row.set i (getv row j)) hjr2 0
    rw [getv_set_ne _ _ hij] at e2
    rw [if_neg (by simp [h1]), if_pos h0] at e1
    rw [if_pos h0, if_neg (by simp)] at e2
    rw [mergeCount_append_move]
    omega
  · intro a ha
    rcases List.mem_append.mp ha with ha | ha
    · obtain ⟨g1, g2, g3, g4, g5, g6, g7⟩ := acts a ha
      exact ⟨g1, g2, g3, by omega, g5, g6, g7⟩
    · have ha' : a = ⟨TileActionKind.Move, getv row j, (rowIdx, j), (rowIdx, i)⟩ := by
        simpa using ha
      subst ha'
      refine ⟨rfl, rfl, ilt, Nat.lt_succ_self j, hj, h0, ?_⟩
      intro hk; cases hk
  · intro a ha hk
    rcases List.mem_append.mp ha with ha | ha
    · obtain ⟨g1, g2⟩ := mdest a ha hk
      refine ⟨g1, ?_⟩
      rw [getv_set_ne _ _ (by omega : j ≠ a.dst.2),
        getv_set_ne _ _ (by omega : i ≠ a.dst.2)]
      exact g2
    · have ha' : a = ⟨TileActionKind.Move, getv row j, (rowIdx, j), (rowIdx, i)⟩ := by
        simpa using ha
      subst ha'; cases hk
  · intro h; simp at h

/-- Merge iteration: the scanned value equals the write-cursor value. -/
theorem linv_merge {l0 : List ℕ} {rowIdx j : ℕ} {row : List ℕ} {i : ℕ}
    {as : List TileAction} (hj : j < l0.length)
    (h0 : getv row j ≠ 0) (h1 : getv row i ≠ 0) (h2 : getv row j = getv row i)
    (hI : LInv l0 rowIdx j row i as) :
    LInv l0 rowIdx (j + 1) ((row.set i (satAdd (getv row i) 1)).set j 0) (i + 1)
      (as ++ [⟨TileActionKind.Merge, satAdd (getv row i) 1, (rowIdx, j), (rowIdx, i)⟩]) := by
  obtain ⟨len, ilt, mid, suf, cnt, acts, mdest, noact⟩ := hI
  have hjr : j < row.length := by omega
  have hir : i < row.length := by omega
  have hij : i ≠ j := Nat.ne_of_lt ilt
  have hjr2 : j < (row.set i (satAdd (getv row i) 1)).length := by
    rw [List.length_set]; exact hjr
  have hvl0 : getv l0 j = getv row i := by rw [← suf j le_rfl]; exact h2
  refine ⟨by simp [List.length_set, len], by omega, ?_, ?_, ?_, ?_, ?_, ?_⟩
  · intro k hk1 hk2
    rcases Nat.lt_succ_iff_lt_or_eq.mp hk2 with h | h
    · rw [getv_set_ne _ _ (Nat.ne_of_lt h).symm, getv_set_ne _ _ (by omega : i ≠ k)]
      exact mid k (by omega) h
    · rw [h]; exact getv_set_self _ _ hjr2
  · intro k hk
    rw [getv_set_ne _ _ (by omega : j ≠ k), getv_set_ne _ _ (by omega : i ≠ k)]
    exact suf k (by omega)
  · have e1 := nz_set row hir (satAdd (getv row i) 1)
    have e2 := nz_set (row.set i (satAdd (getv row i) 1)) hjr2 0
    rw [getv_set_ne _ _ hij] at e2
    rw [if_pos h1, if_pos (satAdd_one_ne_zero _)] at e1
    rw [if_pos h0, if_neg (by simp)] at e2
    rw [mergeCount_append_merge]
    omega
  · intro a ha
    rcases List.mem_append.mp ha with ha | ha
    · obtain ⟨g1, g2, g3, g4, g5, g6, g7⟩ := acts a ha
      exact ⟨g1, g2, g3, by omega, g5, g6, g7⟩
    · have ha' : a = ⟨TileActionKind.Merge, satAdd (getv row i) 1,
          (rowIdx, j), (rowIdx, i)⟩ := by simpa using ha
      subst ha'
      refine ⟨rfl, rfl, ilt, Nat.lt_succ_self j, hj, satAdd_one_ne_zero _, ?_⟩
      intro _
      constructor
      · show satAdd (getv row i) 1 = satAdd (getv l0 j) 1
        rw [hvl0]
      · show getv l0 j ≠ 0
        rw [hvl0]; exact h1
  · intro a ha hk
    rcases List.mem_append.mp ha with ha | ha
    · obtain ⟨g1, g2⟩ := mdest a ha hk
      refine ⟨by omega, ?_⟩
      rw [getv_set_ne _ _ (by omega : j ≠ a.dst.2),
        getv_set_ne _ _ (by omega : i ≠ a.dst.2)]
      exact g2
    · have ha' : a = ⟨TileActionKind.Merge, satAdd (getv row i) 1,
          (rowIdx, j), (rowIdx, i)⟩ := by simpa using ha
      subst ha'
      refine ⟨Nat.lt_succ_self i, ?_⟩
      show getv ((row.set i (satAdd (getv row i) 1)).set j 0) i = satAdd (getv row i) 1
      rw [getv_set_ne _ _ hij.symm]
      exact getv_set_self _ _ hir
  · intro h; simp at h

/-- Advance-only iteration: values differ and the cursor lands on the scan. -/
theorem linv_adv {l0 : List ℕ} {rowIdx j : ℕ} {row : List ℕ} {i : ℕ}
    {as : List TileAction} (h3 : i + 1 = j)
    (hI : LInv l0 rowIdx j row i as) : LInv l0 rowIdx (j + 1) row (i + 1) as := by
  obtain ⟨len, ilt, mid, suf, cnt, acts, mdest, noact⟩ := hI
  refine ⟨len, by omega, ?_, ?_, cnt, ?_, ?_, noact⟩
  · intro k hk1 hk2
    exact ((by omega : False).elim : getv row k = 0)
  · intro k hk; exact suf k (by omega)
  · intro a ha
    obtain ⟨g1, g2, g3, g4, g5, g6, g7⟩ := acts a ha
    exact ⟨g1, g2, g3, by omega, g5, g6, g7⟩
  · intro a ha hk
    obtain ⟨g1, g2⟩ := mdest a ha hk
    exact ⟨by omega, g2⟩

/-- Advance-and-relocate iteration: values differ, cursor advances short of
the scan, the tile moves to the new cursor position. -/
theorem linv_relocate {l0 : List ℕ} {rowIdx j : ℕ} {row : List ℕ} {i : ℕ}
    {as : List TileAction} (hj : j < l0.length)
    (h0 : getv row j ≠ 0) (h3 : i + 1 ≠ j)
    (hI : LInv l0 rowIdx j row i as) :
    LInv l0 rowIdx (j + 1) ((row.set (i + 1) (getv row j)).set j 0) (i + 1)
      (as ++ [⟨TileActionKind.Move, getv row j, (rowIdx, j), (rowIdx, i + 1)⟩]) := by
  obtain ⟨len, ilt, mid, suf, cnt, acts, mdest, noact⟩ := hI
  have hjr : j < row.length := by omega
  have hi1j : i + 1 < j := by omega
  have hmid : getv row (i + 1) = 0 := mid (i + 1) (by omega) hi1j
  have hi1r : i + 1 < row.length := by omega
  have hjr2 : j < (row.set (i + 1) (getv row j)).length := by
    rw [List.length_set]; exact hjr
  refine ⟨by simp [List.length_set, len], by omega, ?_, ?_, ?_, ?_, ?_, ?_⟩
  · intro k hk1 hk2
    rcases Nat.lt_succ_iff_lt_or_eq.mp hk2 with h | h
    · rw [getv_set_ne _ _ (Nat.ne_of_lt h).symm,
        getv_set_ne _ _ (Nat.ne_of_lt hk1)]
      exact mid k (by omega) h
    · rw [h]; exact getv_set_self _ _ hjr2
  · intro k hk
    rw [getv_set_ne _ _ (by omega : j ≠ k), getv_set_ne _ _ (by omega : i + 1 ≠ k)]
    exact suf k (by omega)
  · have e1 := nz_set row hi1r (getv row j)
    have e2 := nz_set (row.set (i + 1) (getv row j)) hjr2 0
    rw [getv_set_ne _ _ (by omega : i + 1 ≠ j)] at e2
    rw [if_neg (by simp [hmid]), if_pos h0] at e1
    rw [if_pos h0, if_neg (by simp)] at e2
    rw [mergeCount_append_move]
    omega
  · intro a ha
    rcases List.mem_append.mp ha with ha | ha
    · obtain ⟨g1, g2, g3, g4, g5, g6, g7⟩ := acts a ha
      exact ⟨g1, g2, g3, by omega, g5, g6, g7⟩
    · have ha' : a = ⟨TileActionKind.Move, getv row j, (rowIdx, j), (rowIdx, i + 1)⟩ := by
        simpa using ha
      subst ha'
      refine ⟨rfl, rfl, hi1j, Nat.lt_succ_self j, hj, h0, ?_⟩
      intro hk; cases hk
  · intro a ha hk
    rcases List.mem_append.mp ha with ha | ha
    · obtain ⟨g1, g2⟩ := mdest a ha hk
      refine ⟨by omega, ?_⟩
      rw [getv_set_ne _ _ (by omega : j ≠ a.dst.2),
        getv_set_ne _ _ (by omega : i + 1 ≠ a.dst.2)]
      exact g2
    · have ha' : a = ⟨TileActionKind.Move, getv row j, (rowIdx, j), (rowIdx, i + 1)⟩ := by
        simpa using ha
      subst ha'; cases hk
  · intro h; simp at h

/-- One loop iteration preserves the invariant. -/
theorem linv_step {l0 : List ℕ} {rowIdx j : ℕ} {s : ShiftState}
    (hj : j < l0.length) (hI : LInv l0 rowIdx j s.row s.i s.actions) :
    LInv l0 rowIdx (j + 1) (shiftStep rowIdx s j).row (shiftStep rowIdx s j).i
      (shiftStep rowIdx s j).actions := by
  obtain ⟨row, i, as⟩ := s
  by_cases h0 : getv row j = 0
  · have hs : shiftStep rowIdx ⟨row, i, as⟩ j = ⟨row, i, as⟩ := by
      simp [shiftStep, h0]
    rw [hs]
    exact linv_skip h0 hI
  · by_cases h1 : getv row i = 0
    · have hs : shiftStep rowIdx ⟨row, i, as⟩ j =
          ⟨(row.set i (getv row j)).set j 0, i,
            as ++ [⟨TileActionKind.Move, getv row j, (rowIdx, j), (rowIdx, i)⟩]⟩ := by
        simp [shiftStep, h0, h1]
      rw [hs]
      exact linv_move hj h0 h1 hI
    · by_cases h2 : getv row j = getv row i
      · have hs : shiftStep rowIdx ⟨row, i, as⟩ j =
            ⟨(row.set i (satAdd (getv row i) 1)).set j 0, i + 1,
              as ++ [⟨TileActionKind.Merge, satAdd (getv row i) 1,
                (rowIdx, j), (rowIdx, i)⟩]⟩ := by
          simp [shiftStep, h0, h1, h2]
        rw [hs]
        exact linv_merge hj h0 h1 h2 hI
      · by_cases h3 : i + 1 = j
        · have hs : shiftStep rowIdx ⟨row, i, as⟩ j = ⟨row, i + 1, as⟩ := by
            simp [shiftStep, h0, h1, h2, h3]
          rw [hs]
          exact linv_adv h3 hI
        · have hs : shiftStep rowIdx ⟨row, i, as⟩ j =
              ⟨(row.set (i + 1) (getv row j)).set j 0, i + 1,
                as ++ [⟨TileActionKind.Move, getv row j, (rowIdx, j), (rowIdx, i + 1)⟩]⟩ := by
            simp [shiftStep, h0, h1, h2, h3]
          rw [hs]
          exact linv_relocate hj h0 h3 hI

/-- Unfolding equation of the scan index list. -/
theorem upFrom_eq (j n : ℕ) :
    upFrom j n = if j < n then j :: upFrom (j + 1) n else [] := by
  split
  next h =>
    rw [upFrom, upFrom]
    have h1 : n - j = (n - (j + 1)) + 1 := by omega
    rw [h1, List.range_succ_eq_map]
    simp only [List.map_cons, List.map_map, Nat.zero_add]
    congr 1
    apply List.map_congr_left
    intro x _
    simp only [Function.comp]
    omega
  next h =>
    rw [upFrom]
    have h0 : n - j = 0 := by omega
    rw [h0]
    rfl

/-- Running the loop to completion preserves the invariant, ending at scan
index `max j l0.length`. -/
theorem linv_loop (l0 : List ℕ) (rowIdx : ℕ) (j : ℕ) (s : ShiftState)
    (hI : LInv l0 rowIdx j s.row s.i s.actions) :
    LInv l0 rowIdx (max j l0.length) (shiftLoop rowIdx (upFrom j l0.length) s).row
      (shiftLoop rowIdx (upFrom j l0.length) s).i
      (shiftLoop rowIdx (upFrom j l0.length) s).actions := by
  rw [upFrom_eq]
  split
  next h =>
    have e : shiftLoop rowIdx (j :: upFrom (j + 1) l0.length) s =
        shiftLoop rowIdx (upFrom (j + 1) l0.length) (shiftStep rowIdx s j) := rfl
    rw [e]
    have h2 := linv_loop l0 rowIdx (j + 1) (shiftStep rowIdx s j) (linv_step h hI)
    have hm : max (j + 1) l0.length = max j l0.length := by omega
    rwa [hm] at h2
  next h =>
    have hm : max j l0.length = j := by omega
    rwa [hm]
termination_by l0.length - j

/-- The initial state satisfies the invariant at scan index 1. -/
theorem linv_init (l0 : List ℕ) (rowIdx : ℕ) : LInv l0 rowIdx 1 l0 0 [] := by
  refine ⟨rfl, Nat.zero_lt_one, ?_, ?_, ?_, ?_, ?_, ?_⟩
  · intro k hk1 hk2; omega
  · intro k _; rfl
  · simp [mergeCount]
  · intro a ha; simp at ha
  · intro a ha; simp at ha
  · intro _; rfl

/-- The state reached by `shift_nums_left` on line `l0`. -/
def snlState (l0 : List ℕ) (rowIdx : ℕ) : ShiftState :=
  shiftLoop rowIdx (upFrom 1 l0.length) ⟨l0, 0, []⟩

theorem shift_nums_left_eq (l0 : List ℕ) (rowIdx : ℕ) :
    shift_nums_left l0 rowIdx = ((snlState l0 rowIdx).row, (snlState l0 rowIdx).actions) :=
  rfl

/-- The full invariant, transported to the final state of `shift_nums_left`. -/
theorem snlState_inv (l0 : List ℕ) (rowIdx : ℕ) :
    LInv l0 rowIdx (max 1 l0.length) (snlState l0 rowIdx).row
      (snlState l0 rowIdx).i (snlState l0 rowIdx).actions :=
  linv_loop l0 rowIdx 1 ⟨l0, 0, []⟩ (linv_init l0 rowIdx)

theorem snl_length (l0 : List ℕ) (rowIdx : ℕ) :
    (shift_nums_left l0 rowIdx).1.length = l0.length := by
  rw [shift_nums_left_eq]
  exact (snlState_inv l0 rowIdx).len

theorem snl_cnt (l0 : List ℕ) (rowIdx : ℕ) :
    nz (shift_nums_left l0 rowIdx).1 + mergeCount (shift_nums_left l0 rowIdx).2 = nz l0 := by
  rw [shift_nums_left_eq]
  exact (snlState_inv l0 rowIdx).cnt

theorem snl_acts (l0 : List ℕ) (rowIdx : ℕ) :
    ∀ a ∈ (shift_nums_left l0 rowIdx).2,
      a.src.1 = rowIdx ∧ a.dst.1 = rowIdx ∧ a.dst.2 < a.src.2 ∧
        a.src.2 < l0.length ∧ a.value ≠ 0 ∧
        (a.kind = TileActionKind.Merge →
          a.value = satAdd (getv l0 a.src.2) 1 ∧ getv l0 a.src.2 ≠ 0) := by
  rw [shift_nums_left_eq]
  intro a ha
  obtain ⟨g1, g2, g3, _, g5, g6, g7⟩ := (snlState_inv l0 rowIdx).acts a ha
  exact ⟨g1, g2, g3, g5, g6, g7⟩

theorem snl_mdest (l0 : List ℕ) (rowIdx : ℕ) :
    ∀ a ∈ (shift_nums_left l0 rowIdx).2, a.kind = TileActionKind.Merge →
      getv (shift_nums_left l0 rowIdx).1 a.dst.2 = a.value := by
  rw [shift_nums_left_eq]
  intro a ha hk
  exact ((snlState_inv l0 rowIdx).mdest a ha hk).2

theorem snl_noact (l0 : List ℕ) (rowIdx : ℕ)
    (h : (shift_nums_left l0 rowIdx).2 = []) : (shift_nums_left l0 rowIdx).1 = l0 := by
  rw [shift_nums_left_eq] at h ⊢
  exact (snlState_inv l0 rowIdx).noact h

/-! ### Fully compacted lines are fixed points with no actions -/

/-- A line whose non-zero values form a prefix of length `k`, with no two
adjacent equal values inside that prefix (and hence no possible move when
shifting left). -/
def CompactLine (l : List ℕ) (k : ℕ) : Prop :=
  k ≤ l.length ∧ (∀ i, i < k → getv l i ≠ 0) ∧ (∀ i, k ≤ i → getv l i = 0) ∧
    (∀ i, i + 1 < k → getv l i ≠ getv l (i + 1))

/-- On a compacted line the loop never changes the row nor emits an action. -/
theorem noop_loop (l : List ℕ) (k rowIdx : ℕ) (hc : CompactLine l k)
    (j : ℕ) (hj : 0 < j) (s : ShiftState) (hrow : s.row = l) (hact : s.actions = [])
    (hi : (k = 0 ∧ s.i = 0) ∨ (0 < k ∧ j ≤ k ∧ s.i = j - 1) ∨
      (0 < k ∧ k < j ∧ s.i = k - 1)) :
    (shiftLoop rowIdx (upFrom j l.length) s).row = l ∧
      (shiftLoop rowIdx (upFrom j l.length) s).actions = [] := by
  obtain ⟨hk, hnz, hz, hne⟩ := hc
  rw [upFrom_eq]
  split
  next h =>
    have e : shiftLoop rowIdx (j :: upFrom (j + 1) l.length) s =
        shiftLoop rowIdx (upFrom (j + 1) l.length) (shiftStep rowIdx s j) := rfl
    rw [e]
    by_cases hjk : j < k
    · -- inside the non-zero prefix: the advance-only branch runs
      have hjz : getv s.row j ≠ 0 := by rw [hrow]; exact hnz j hjk
      have hik : s.i = j - 1 := by omega
      have hiz : getv s.row s.i ≠ 0 := by
        rw [hrow, hik]; exact hnz (j - 1) (by omega)
      have hneq : getv s.row j ≠ getv s.row s.i := by
        rw [hrow, hik]
        have := hne (j - 1) (by omega)
        have hj1 : j - 1 + 1 = j := by omega
        rw [hj1] at this
        exact fun he => this he.symm
      have hij : s.i + 1 = j := by omega
      have hs : shiftStep rowIdx s j = { s with i := s.i + 1 } := by
        obtain ⟨row, i, as⟩ := s
        simp only at hjz hiz hneq hij
        simp [shiftStep, hjz, hiz, hneq, hij]
      rw [hs]
      exact noop_loop l k rowIdx ⟨hk, hnz, hz, hne⟩ (j + 1) (by omega) _ hrow hact
        (by right; left; refine ⟨by omega, by omega, ?_⟩; simp [hik]; omega)
    · -- at or past the prefix end: the scanned value is zero, skip
      have hjz : getv s.row j = 0 := by rw [hrow]; exact hz j (by omega)
      have hs : shiftStep rowIdx s j = s := by
        obtain ⟨row, i, as⟩ := s
        simp only at hjz
        simp [shiftStep, hjz]
      rw [hs]
      refine noop_loop l k rowIdx ⟨hk, hnz, hz, hne⟩ (j + 1) (by omega) s hrow hact ?_
      rcases hi with ⟨h1, h2⟩ | ⟨h1, h2, h3⟩ | ⟨h1, h2, h3⟩
      · left; exact ⟨h1, h2⟩
      · right
        have hjk2 : j = k := by omega
        right
        exact ⟨h1, by omega, by omega⟩
      · right; right; exact ⟨h1, by omega, h3⟩
  next h => exact ⟨hrow, hact⟩
termination_by l.length - j

/-- `shift_nums_left` is the identity, with no actions, on a compacted line. -/
theorem snl_noop_of_compact (l : List ℕ) (k rowIdx : ℕ) (hc : CompactLine l k) :
    shift_nums_left l rowIdx = (l, []) := by
  have h := noop_loop l k rowIdx hc 1 Nat.zero_lt_one ⟨l, 0, []⟩ rfl rfl ?_
  · rw [shift_nums_left_eq]
    exact Prod.ext h.1 h.2
  · rcases Nat.eq_zero_or_pos k with hk | hk
    · left; exact ⟨hk, rfl⟩
    · right; left; exact ⟨hk, by omega, rfl⟩

/-! ### Board-level structure of `shift` -/

theorem getRow_cons_zero (r : List ℕ) (rs : List (List ℕ)) : getRow (r :: rs) 0 = r := rfl

theorem getRow_cons_succ (r : List ℕ) (rs : List (List ℕ)) (k : ℕ) :
    getRow (r :: rs) (k + 1) = getRow rs k := rfl

theorem getRow_eq_getElem (b : List (List ℕ)) (r : ℕ) (h : r < b.length) :
    getRow b r = b[r] := by
  simp [getRow, List.getD_eq_getElem?_getD, List.getElem?_eq_getElem h]

theorem getRow_mem (b : List (List ℕ)) (r : ℕ) (h : r < b.length) : getRow b r ∈ b := by
  rw [getRow_eq_getElem b r h]
  exact List.getElem_mem h

theorem cell_eq (b : List (List ℕ)) (r c : ℕ) : cell b r c = getv (getRow b r) c := rfl

theorem mergeCount_append (as bs : List TileAction) :
    mergeCount (as ++ bs) = mergeCount as + mergeCount bs :=
  List.countP_append _ _ _

theorem mergeCount_map (f : TileAction → TileAction) (h : ∀ a, (f a).kind = a.kind)
    (as : List TileAction) : mergeCount (as.map f) = mergeCount as := by
  rw [mergeCount, List.countP_map]
  apply List.countP_congr
  intro a _
  simp [Function.comp, h a]

theorem shiftLinesFrom_fst_length (k : ℕ) (m : List (List ℕ)) :
    (shiftLinesFrom k m).1.length = m.length := by
  induction m generalizing k with
  | nil => rfl
  | cons r rs ih => simp [shiftLinesFrom, ih]

theorem shiftLinesFrom_fst_getRow (k : ℕ) (m : List (List ℕ)) (r : ℕ) (hr : r < m.length) :
    getRow (shiftLinesFrom k m).1 r = (shift_nums_left (getRow m r) (k + r)).1 := by
  induction m generalizing k r with
  | nil => simp at hr
  | cons x rs ih =>
    cases r with
    | zero => simp [shiftLinesFrom, getRow_cons_zero]
    | succ r =>
      have h := ih (k + 1) r (by simpa using hr)
      have e : k + (r + 1) = k + 1 + r := by omega
      rw [e]
      simpa [shiftLinesFrom, getRow_cons_succ] using h

theorem shiftLinesFrom_snd_mem (k : ℕ) (m : List (List ℕ)) (a : TileAction) :
    a ∈ (shiftLinesFrom k m).2 ↔
      ∃ r, r < m.length ∧ a ∈ (shift_nums_left (getRow m r) (k + r)).2 := by
  induction m generalizing k with
  | nil => simp [shiftLinesFrom]
  | cons x rs ih =>
    simp only [shiftLinesFrom, List.mem_append]
    constructor
    · rintro (h | h)
      · exact ⟨0, by simp, by simpa [getRow_cons_zero] using h⟩
      · obtain ⟨r, hr, hm⟩ := (ih (k + 1)).mp h
        refine ⟨r + 1, by simpa using hr, ?_⟩
        have e : k + (r + 1) = k + 1 + r := by omega
        rw [getRow_cons_succ, e]
        exact hm
    · rintro ⟨r, hr, hm⟩
      cases r with
      | zero => left; simpa [getRow_cons_zero] using hm
      | succ r =>
        right
        apply (ih (k + 1)).mpr
        refine ⟨r, by simpa using hr, ?_⟩
        have e : k + 1 + r = k + (r + 1) := by omega
        rw [e]
        rw [getRow_cons_succ] at hm
        exact hm

theorem shiftLinesFrom_cnt (k : ℕ) (m : List (List ℕ)) :
    nzBoard (shiftLinesFrom k m).1 + mergeCount (shiftLinesFrom k m).2 = nzBoard m := by
  induction m generalizing k with
  | nil => simp [shiftLinesFrom, nzBoard, mergeCount]
  | cons x rs ih =>
    have h1 := snl_cnt x k
    have h2 := ih (k + 1)
    simp only [shiftLinesFrom, nzBoard, List.map_cons, List.sum_cons] at h1 h2 ⊢
    rw [mergeCount_append]
    omega

theorem shiftLinesFrom_noact (k : ℕ) (m : List (List ℕ))
    (h : (shiftLinesFrom k m).2 = []) : (shiftLinesFrom k m).1 = m := by
  induction m generalizing k with
  | nil => rfl
  | cons x rs ih =>
    simp only [shiftLinesFrom] at h ⊢
    rw [List.append_eq_nil] at h
    rw [snl_noact x k h.1, ih (k + 1) h.2]

theorem shiftLinesFrom_noop (k : ℕ) (m : List (List ℕ))
    (h : ∀ r, r < m.length → ∃ kk, CompactLine (getRow m r) kk) :
    shiftLinesFrom k m = (m, []) := by
  induction m generalizing k with
  | nil => rfl
  | cons x rs ih =>
    obtain ⟨k0, hk0⟩ := h 0 (by simp)
    have h1 : shift_nums_left x k = (x, []) := snl_noop_of_compact x k0 k hk0
    have h2 : shiftLinesFrom (k + 1) rs = (rs, []) := by
      apply ih
      intro r hr
      have := h (r + 1) (by simpa using hr)
      simpa [getRow_cons_succ] using this
    simp [shiftLinesFrom, h1, h2]

/-! ### Transpose and reverse -/

theorem length_transposeSq (b : List (List ℕ)) : (transposeSq b).length = b.length := by
  simp [transposeSq]

theorem getRow_transposeSq (b : List (List ℕ)) {j : ℕ} (hj : j < b.length) :
    getRow (transposeSq b) j = b.map (fun r => getv r j) := by
  rw [getRow, transposeSq, List.getD_eq_getElem?_getD, List.getElem?_map,
    List.getElem?_range hj]
  rfl

theorem getv_map (f : List ℕ → ℕ) (b : List (List ℕ)) (c : ℕ) (hc : c < b.length) :
    getv (b.map f) c = f (getRow b c) := by
  rw [getv, List.getD_eq_getElem?_getD, List.getElem?_map,
    List.getElem?_eq_getElem hc, getRow_eq_getElem b c hc]
  rfl

theorem cell_transposeSq (b : List (List ℕ)) {r c : ℕ} (hr : r < b.length)
    (hc : c < b.length) : cell (transposeSq b) r c = cell b c r := by
  rw [cell_eq, getRow_transposeSq b hr, getv_map _ b c hc, cell_eq]

theorem wf_transposeSq (b : List (List ℕ)) : Wf (transposeSq b) := by
  intro r hr
  rw [length_transposeSq]
  simp only [transposeSq, List.mem_map] at hr
  obtain ⟨j, _, rfl⟩ := hr
  simp

theorem row_length_of_wf {b : List (List ℕ)} (hw : Wf b) {r : ℕ} (hr : r < b.length) :
    (getRow b r).length = b.length :=
  hw _ (getRow_mem b r hr)

theorem transposeSq_transposeSq (b : List (List ℕ)) (hw : Wf b) :
    transposeSq (transposeSq b) = b := by
  apply List.ext_getElem (by rw [length_transposeSq, length_transposeSq])
  intro r h1 h2
  have hr : r < b.length := h2
  have hrT : r < (transposeSq b).length := by rw [length_transposeSq]; exact hr
  rw [← getRow_eq_getElem _ r h1, ← getRow_eq_getElem _ r h2,
    getRow_transposeSq (transposeSq b) hrT]
  apply List.ext_getElem (by rw [List.length_map, length_transposeSq,
    row_length_of_wf hw hr])
  intro c hc1 hc2
  have hcb : c < b.length := by
    have := row_length_of_wf hw hr
    omega
  have hcT : c < (transposeSq b).length := by rw [length_transposeSq]; exact hcb
  have e1 : ((transposeSq b).map (fun row => getv row r))[c] =
      getv (getRow (transposeSq b) c) r := by
    rw [List.getElem_map, getRow_eq_getElem _ c hcT]
  rw [e1, ← cell_eq, cell_transposeSq b hcb hr, cell_eq]
  exact getv_eq_getElem _ c hc2

theorem getv_reverse (l : List ℕ) {k : ℕ} (hk : k < l.length) :
    getv l.reverse k = getv l (l.length - 1 - k) := by
  rw [getv_eq_getElem _ _ (by simpa using hk), getv_eq_getElem _ _ (by omega)]
  exact List.getElem_reverse _

theorem nz_reverse (l : List ℕ) : nz l.reverse = nz l :=
  (List.reverse_perm l).countP_eq _

theorem nzBoard_map_reverse (b : List (List ℕ)) :
    nzBoard (b.map List.reverse) = nzBoard b := by
  rw [nzBoard, nzBoard, List.map_map]
  congr 1
  apply List.map_congr_left
  intro x _
  exact nz_reverse x

theorem wf_map_reverse {b : List (List ℕ)} (hw : Wf b) : Wf (b.map List.reverse) := by
  intro r hr
  rw [List.length_map]
  simp only [List.mem_map] at hr
  obtain ⟨x, hx, rfl⟩ := hr
  rw [List.length_reverse]
  exact hw x hx

/-! ### Counting cells through a transpose -/

theorem list_range_sum (f : ℕ → ℕ) (n : ℕ) :
    ((List.range n).map f).sum = ∑ i ∈ Finset.range n, f i := by
  induction n with
  | zero => simp
  | succ n ih =>
    rw [List.range_succ, List.map_append, List.sum_append, Finset.sum_range_succ, ih]
    simp

theorem nz_eq_sum (l : List ℕ) :
    nz l = ∑ k ∈ Finset.range l.length, (if getv l k ≠ 0 then 1 else 0) := by
  induction l with
  | nil => simp [nz]
  | cons a t ih =>
    have hcons : nz (a :: t) = nz t + (if a ≠ 0 then 1 else 0) := by
      simp only [nz, List.countP_cons]
      congr 1
      simp [bne_iff_ne]
    rw [hcons, List.length_cons, Finset.sum_range_succ']
    simp only [getv_cons_succ, getv_cons_zero]
    rw [← ih]

theorem nzBoard_eq_sum (b : List (List ℕ)) (hw : Wf b) :
    nzBoard b = ∑ r ∈ Finset.range b.length, ∑ c ∈ Finset.range b.length,
      (if cell b r c ≠ 0 then 1 else 0) := by
  have h1 : b.map nz = (List.range b.length).map (fun r => nz (getRow b r)) := by
    apply List.ext_getElem (by simp)
    intro i hi1 hi2
    rw [List.getElem_map, List.getElem_map, List.getElem_range,
      getRow_eq_getElem b i (by simpa using hi1)]
  rw [nzBoard, h1, list_range_sum]
  apply Finset.sum_congr rfl
  intro r hr
  rw [nz_eq_sum, row_length_of_wf hw (Finset.mem_range.mp hr)]
  apply Finset.sum_congr rfl
  intro c _
  rw [cell_eq]

theorem nzBoard_transposeSq (b : List (List ℕ)) (hw : Wf b) :
    nzBoard (transposeSq b) = nzBoard b := by
  rw [nzBoard_eq_sum _ (wf_transposeSq b), nzBoard_eq_sum _ hw, length_transposeSq]
  rw [Finset.sum_comm]
  apply Finset.sum_congr rfl
  intro c hc
  apply Finset.sum_congr rfl
  intro r hr
  rw [cell_transposeSq b (Finset.mem_range.mp hr) (Finset.mem_range.mp hc)]

/-! ### Per-direction decomposition of `shift` -/

/-- The list of 1-D lines that `shift d` compacts, in the order the source
iterates them. -/
def linesOf : Direction → List (List ℕ) → List (List ℕ)
  | .Left, b => b
  | .Right, b => b.map List.reverse
  | .Up, b => transposeSq b
  | .Down, b => (transposeSq b).map List.reverse

theorem length_linesOf (d : Direction) (b : List (List ℕ)) :
    (linesOf d b).length = b.length := by
  cases d <;> simp [linesOf, length_transposeSq]

theorem wf_linesOf (d : Direction) (b : List (List ℕ)) (hw : Wf b) :
    Wf (linesOf d b) := by
  cases d with
  | Left => exact hw
  | Right =>
    have h := wf_map_reverse hw
    exact h
  | Up => exact wf_transposeSq b
  | Down =>
    have h := wf_map_reverse (wf_transposeSq b)
    exact h

theorem getRow_map (f : List ℕ → List ℕ) (b : List (List ℕ)) (r : ℕ)
    (hr : r < b.length) : getRow (b.map f) r = f (getRow b r) := by
  rw [getRow, List.getD_eq_getElem?_getD, List.getElem?_map,
    List.getElem?_eq_getElem hr, getRow_eq_getElem b r hr]
  rfl

theorem wf_of_rows (b : List (List ℕ))
    (h : ∀ r, r < b.length → (getRow b r).length = b.length) : Wf b := by
  intro x hx
  obtain ⟨r, hr, rfl⟩ := List.getElem_of_mem hx
  rw [← getRow_eq_getElem b r hr]
  exact h r hr

theorem wf_shiftLines (m : List (List ℕ)) (hw : Wf m) : Wf (shiftLinesFrom 0 m).1 := by
  apply wf_of_rows
  intro r hr
  rw [shiftLinesFrom_fst_length] at hr ⊢
  rw [shiftLinesFrom_fst_getRow 0 m r hr, snl_length, row_length_of_wf hw hr]

theorem shift_eq_cases (d : Direction) (b : List (List ℕ)) :
    shift d b =
      (match d with
        | .Left => ((shiftLinesFrom 0 (linesOf d b)).1,
            (shiftLinesFrom 0 (linesOf d b)).2)
        | .Right => ((shiftLinesFrom 0 (linesOf d b)).1.map List.reverse,
            (shiftLinesFrom 0 (linesOf d b)).2.map (remapRight b.length))
        | .Up => (transposeSq (shiftLinesFrom 0 (linesOf d b)).1,
            (shiftLinesFrom 0 (linesOf d b)).2.map remapUp)
        | .Down => (transposeSq ((shiftLinesFrom 0 (linesOf d b)).1.map List.reverse),
            (shiftLinesFrom 0 (linesOf d b)).2.map (remapDown b.length))) := by
  cases d <;> rfl

/-- The board returned by `shift` is as long as the input and square. -/
theorem shift_wf (d : Direction) (b : List (List ℕ)) (hw : Wf b) :
    Wf (shift d b).1 ∧ (shift d b).1.length = b.length := by
  have hwl := wf_linesOf d b hw
  have hll := length_linesOf d b
  have hw1 := wf_shiftLines (linesOf d b) hwl
  have hl1 : (shiftLinesFrom 0 (linesOf d b)).1.length = b.length := by
    rw [shiftLinesFrom_fst_length]; exact hll
  cases d with
  | Left => exact ⟨hw1, hl1⟩
  | Right =>
    rw [shift_eq_cases]
    refine ⟨?_, by simpa using hl1⟩
    have := wf_map_reverse hw1
    simpa using this
  | Up =>
    rw [shift_eq_cases]
    exact ⟨wf_transposeSq _, by rw [length_transposeSq]; exact hl1⟩
  | Down =>
    rw [shift_eq_cases]
    exact ⟨wf_transposeSq _, by rw [length_transposeSq, List.length_map]; exact hl1⟩

/-- Conservation law of `shift`: non-zero cells after plus merges equal
non-zero cells before. -/
theorem shift_cnt (d : Direction) (b : List (List ℕ)) (hw : Wf b) :
    nzBoard (shift d b).1 + mergeCount (shift d b).2 = nzBoard b := by
  have hwl := wf_linesOf d b hw
  have hcnt := shiftLinesFrom_cnt 0 (linesOf d b)
  have hw1 := wf_shiftLines (linesOf d b) hwl
  cases d with
  | Left => exact hcnt
  | Right =>
    rw [shift_eq_cases]
    have h1 : nzBoard ((shiftLinesFrom 0 (linesOf Direction.Right b)).1.map List.reverse)
        = nzBoard (shiftLinesFrom 0 (linesOf Direction.Right b)).1 :=
      nzBoard_map_reverse _
    have h2 : mergeCount ((shiftLinesFrom 0 (linesOf Direction.Right b)).2.map
        (remapRight b.length)) = mergeCount (shiftLinesFrom 0 (linesOf Direction.Right b)).2 :=
      mergeCount_map (remapRight b.length) (fun a => rfl) _
    have h3 : nzBoard (linesOf Direction.Right b) = nzBoard b := nzBoard_map_reverse b
    simp only []
    rw [h1, h2, hcnt, h3]
  | Up =>
    rw [shift_eq_cases]
    have h1 : nzBoard (transposeSq (shiftLinesFrom 0 (linesOf Direction.Up b)).1)
        = nzBoard (shiftLinesFrom 0 (linesOf Direction.Up b)).1 :=
      nzBoard_transposeSq _ hw1
    have h2 : mergeCount ((shiftLinesFrom 0 (linesOf Direction.Up b)).2.map remapUp)
        = mergeCount (shiftLinesFrom 0 (linesOf Direction.Up b)).2 :=
      mergeCount_map remapUp (fun a => rfl) _
    have h3 : nzBoard (linesOf Direction.Up b) = nzBoard b := nzBoard_transposeSq b hw
    simp only []
    rw [h1, h2, hcnt, h3]
  | Down =>
    rw [shift_eq_cases]
    have h1 : nzBoard (transposeSq ((shiftLinesFrom 0 (linesOf Direction.Down b)).1.map
        List.reverse)) = nzBoard (shiftLinesFrom 0 (linesOf Direction.Down b)).1 := by
      rw [nzBoard_transposeSq _ (wf_map_reverse hw1), nzBoard_map_reverse]
    have h2 : mergeCount ((shiftLinesFrom 0 (linesOf Direction.Down b)).2.map
        (remapDown b.length)) = mergeCount (shiftLinesFrom 0 (linesOf Direction.Down b)).2 :=
      mergeCount_map (remapDown b.length) (fun a => rfl) _
    have h3 : nzBoard (linesOf Direction.Down b) = nzBoard b := by
      rw [linesOf, nzBoard_map_reverse, nzBoard_transposeSq b hw]
    simp only []
    rw [h1, h2, hcnt, h3]

/-- Reassembling the untouched lines gives back the board. -/
theorem reassemble_id (d : Direction) (b : List (List ℕ)) (hw : Wf b)
    (h : (shiftLinesFrom 0 (linesOf d b)).1 = linesOf d b) : (shift d b).1 = b := by
  cases d with
  | Left => exact h
  | Right =>
    rw [shift_eq_cases]
    simp only []
    rw [h, linesOf, List.map_map]
    have : (List.reverse ∘ List.reverse) = fun l : List ℕ => l := by
      funext l; simp
    rw [this]
    exact List.map_id' b
  | Up =>
    rw [shift_eq_cases]
    simp only []
    rw [h, linesOf, transposeSq_transposeSq b hw]
  | Down =>
    rw [shift_eq_cases]
    simp only []
    rw [h, linesOf, List.map_map]
    have : (List.reverse ∘ List.reverse) = fun l : List ℕ => l := by
      funext l; simp
    rw [this, List.map_id', transposeSq_transposeSq b hw]

/-- A shift that emits no actions does not change the board. -/
theorem shift_noact (d : Direction) (b : List (List ℕ)) (hw : Wf b)
    (h : (shift d b).2 = []) : (shift d b).1 = b := by
  apply reassemble_id d b hw
  apply shiftLinesFrom_noact
  cases d with
  | Left => exact h
  | Right =>
    rw [shift_eq_cases] at h
    simpa using h
  | Up =>
    rw [shift_eq_cases] at h
    simpa using h
  | Down =>
    rw [shift_eq_cases] at h
    simpa using h

/-- If every line in direction `d` is compacted, `shift d` is a no-op with no
actions. -/
theorem shift_noop (d : Direction) (b : List (List ℕ)) (hw : Wf b)
    (h : ∀ r, r < b.length → ∃ k, CompactLine (getRow (linesOf d b) r) k) :
    shift d b = (b, []) := by
  have hlines : shiftLinesFrom 0 (linesOf d b) = (linesOf d b, []) := by
    apply shiftLinesFrom_noop
    intro r hr
    rw [length_linesOf] at hr
    exact h r hr
  have h1 : (shift d b).1 = b := reassemble_id d b hw (by rw [hlines])
  have h2 : (shift d b).2 = [] := by
    cases d with
    | Left => rw [show (shift Direction.Left b).2 = (shiftLinesFrom 0 (linesOf Direction.Left b)).2 from rfl, hlines]
    | Right =>
      rw [shift_eq_cases]
      simp [hlines]
    | Up =>
      rw [shift_eq_cases]
      simp [hlines]
    | Down =>
      rw [shift_eq_cases]
      simp [hlines]
  calc shift d b = ((shift d b).1, (shift d b).2) := rfl
    _ = (b, []) := by rw [h1, h2]

/-- The coordinate fix-up used by `shift d` on a board of side `n`. -/
def remapOf : Direction → ℕ → TileAction → TileAction
  | .Left, _, a => a
  | .Right, n, a => remapRight n a
  | .Up, _, a => remapUp a
  | .Down, n, a => remapDown n a

/-- Every action of `shift d` is the fix-up of an action of one compacted
line. -/
theorem shift_snd_mem (d : Direction) (b : List (List ℕ)) (a : TileAction) :
    a ∈ (shift d b).2 ↔ ∃ r a0, r < (linesOf d b).length ∧
      a0 ∈ (shift_nums_left (getRow (linesOf d b) r) r).2 ∧
      a = remapOf d b.length a0 := by
  have key : ∀ m : List (List ℕ), ∀ a0 : TileAction,
      a0 ∈ (shiftLinesFrom 0 m).2 ↔
        ∃ r, r < m.length ∧ a0 ∈ (shift_nums_left (getRow m r) r).2 := by
    intro m a0
    rw [shiftLinesFrom_snd_mem]
    simp only [Nat.zero_add]
  cases d with
  | Left =>
    rw [show (shift Direction.Left b).2 = (shiftLinesFrom 0 (linesOf Direction.Left b)).2
      from rfl, key]
    constructor
    · rintro ⟨r, hr, hm⟩; exact ⟨r, a, hr, hm, rfl⟩
    · rintro ⟨r, a0, hr, hm, rfl⟩; exact ⟨r, hr, hm⟩
  | Right =>
    rw [show (shift Direction.Right b).2 = ((shiftLinesFrom 0
      (linesOf Direction.Right b)).2.map (remapRight b.length)) from rfl]
    rw [List.mem_map]
    constructor
    · rintro ⟨a0, hm, rfl⟩
      obtain ⟨r, hr, hm'⟩ := (key _ a0).mp hm
      exact ⟨r, a0, hr, hm', rfl⟩
    · rintro ⟨r, a0, hr, hm, rfl⟩
      exact ⟨a0, (key _ a0).mpr ⟨r, hr, hm⟩, rfl⟩
  | Up =>
    rw [show (shift Direction.Up b).2 = ((shiftLinesFrom 0
      (linesOf Direction.Up b)).2.map remapUp) from rfl]
    rw [List.mem_map]
    constructor
    · rintro ⟨a0, hm, rfl⟩
      obtain ⟨r, hr, hm'⟩ := (key _ a0).mp hm
      exact ⟨r, a0, hr, hm', rfl⟩
    · rintro ⟨r, a0, hr, hm, rfl⟩
      exact ⟨a0, (key _ a0).mpr ⟨r, hr, hm⟩, rfl⟩
  | Down =>
    rw [show (shift Direction.Down b).2 = ((shiftLinesFrom 0
      (linesOf Direction.Down b)).2.map (remapDown b.length)) from rfl]
    rw [List.mem_map]
    constructor
    · rintro ⟨a0, hm, rfl⟩
      obtain ⟨r, hr, hm'⟩ := (key _ a0).mp hm
      exact ⟨r, a0, hr, hm', rfl⟩
    · rintro ⟨r, a0, hr, hm, rfl⟩
      exact ⟨a0, (key _ a0).mpr ⟨r, hr, hm⟩, rfl⟩

/-- What `shift` guarantees of every returned action, relative to the input
board `b` and the output board `bout`: coordinates are in range, the
destination differs from the source, the value is a live tile, and a `Merge`
carries the saturated increment of the source tile's original rank, which was
non-zero, and stores exactly that value at its destination. -/
def ActOK (b bout : List (List ℕ)) (a : TileAction) : Prop :=
  a.src.1 < b.length ∧ a.src.2 < b.length ∧ a.dst.1 < b.length ∧
    a.dst.2 < b.length ∧ a.src ≠ a.dst ∧ a.value ≠ 0 ∧
    (a.kind = TileActionKind.Merge →
      a.value = satAdd (cell b a.src.1 a.src.2) 1 ∧ cell b a.src.1 a.src.2 ≠ 0 ∧
      cell bout a.dst.1 a.dst.2 = a.value)

/-- The true grid coordinate of position `p` of line `r` for direction `d` on
a board of side `n`: the inverse image of the coordinate fix-up. -/
def srcMap (d : Direction) (n r p : ℕ) : ℕ × ℕ :=
  match d with
  | .Left => (r, p)
  | .Right => (r, n - 1 - p)
  | .Up => (p, r)
  | .Down => (n - 1 - p, r)

theorem remapOf_src (d : Direction) (n : ℕ) (a : TileAction) :
    (remapOf d n a).src = srcMap d n a.src.1 a.src.2 := by
  cases d <;> simp [remapOf, remapRight, remapUp, remapDown, srcMap]

theorem remapOf_dst (d : Direction) (n : ℕ) (a : TileAction) :
    (remapOf d n a).dst = srcMap d n a.dst.1 a.dst.2 := by
  cases d <;> simp [remapOf, remapRight, remapUp, remapDown, srcMap]

theorem remapOf_kind (d : Direction) (n : ℕ) (a : TileAction) :
    (remapOf d n a).kind = a.kind := by
  cases d <;> rfl

theorem remapOf_value (d : Direction) (n : ℕ) (a : TileAction) :
    (remapOf d n a).value = a.value := by
  cases d <;> rfl

theorem srcMap_lt (d : Direction) {n r p : ℕ} (hr : r < n) (hp : p < n) :
    (srcMap d n r p).1 < n ∧ (srcMap d n r p).2 < n := by
  cases d <;> simp [srcMap] <;> omega

theorem srcMap_ne (d : Direction) {n r p q : ℕ} (hp : p < n) (hq : q < n)
    (hne : p ≠ q) : srcMap d n r p ≠ srcMap d n r q := by
  cases d <;> simp [srcMap, Prod.ext_iff] <;> omega

/-- The origin cell of a line position: reading position `p` of line `r` of
`linesOf d b` is reading one true cell of `b`. -/
theorem getv_linesOf (d : Direction) (b : List (List ℕ)) (hw : Wf b)
    {r p : ℕ} (hr : r < b.length) (hp : p < b.length) :
    getv (getRow (linesOf d b) r) p =
      cell b (srcMap d b.length r p).1 (srcMap d b.length r p).2 := by
  cases d with
  | Left => rfl
  | Right =>
    show getv (getRow (linesOf Direction.Right b) r) p = cell b r (b.length - 1 - p)
    rw [linesOf, getRow_map List.reverse b r hr,
      getv_reverse _ (by rw [row_length_of_wf hw hr]; exact hp),
      row_length_of_wf hw hr]
    rfl
  | Up =>
    show getv (getRow (linesOf Direction.Up b) r) p = cell b p r
    rw [linesOf, getRow_transposeSq b hr, getv_map _ b p hp]
    rfl
  | Down =>
    show getv (getRow (linesOf Direction.Down b) r) p = cell b (b.length - 1 - p) r
    have hrT : r < (transposeSq b).length := by rw [length_transposeSq]; exact hr
    have hlen : (getRow (transposeSq b) r).length = b.length := by
      rw [row_length_of_wf (wf_transposeSq b) hrT, length_transposeSq]
    rw [linesOf, getRow_map List.reverse (transposeSq b) r hrT,
      getv_reverse _ (by rw [hlen]; exact hp), hlen,
      getRow_transposeSq b hr, getv_map _ b _ (by omega)]
    rfl

/-- Reading the output board at the remapped position `q` of line `r` is
reading position `q` of the compacted line. -/
theorem cell_shift_dst (d : Direction) (b : List (List ℕ)) (hw : Wf b)
    {r q : ℕ} (hr : r < b.length) (hq : q < b.length) :
    cell (shift d b).1 (srcMap d b.length r q).1 (srcMap d b.length r q).2
      = getv (shift_nums_left (getRow (linesOf d b) r) r).1 q := by
  have hrl : r < (linesOf d b).length := by rw [length_linesOf]; exact hr
  have hwl : Wf (linesOf d b) := wf_linesOf d b hw
  have hp1len : (shiftLinesFrom 0 (linesOf d b)).1.length = b.length := by
    rw [shiftLinesFrom_fst_length, length_linesOf]
  have hrowp1 : getRow (shiftLinesFrom 0 (linesOf d b)).1 r =
      (shift_nums_left (getRow (linesOf d b) r) r).1 := by
    have h := shiftLinesFrom_fst_getRow 0 (linesOf d b) r hrl
    simpa using h
  have hrowp1len : (getRow (shiftLinesFrom 0 (linesOf d b)).1 r).length = b.length := by
    rw [hrowp1, snl_length, row_length_of_wf hwl hrl, length_linesOf]
  cases d with
  | Left =>
    show cell (shiftLinesFrom 0 (linesOf Direction.Left b)).1 r q = _
    rw [cell_eq, hrowp1]
  | Right =>
    show cell ((shiftLinesFrom 0 (linesOf Direction.Right b)).1.map List.reverse) r
      (b.length - 1 - q) = _
    rw [cell_eq, getRow_map List.reverse _ r (by rw [hp1len]; exact hr),
      getv_reverse _ (by rw [hrowp1len]; omega), hrowp1len,
      show b.length - 1 - (b.length - 1 - q) = q from by omega, hrowp1]
  | Up =>
    show cell (transposeSq (shiftLinesFrom 0 (linesOf Direction.Up b)).1) q r = _
    rw [cell_transposeSq _ (by rw [hp1len]; exact hq) (by rw [hp1len]; exact hr),
      cell_eq, hrowp1]
  | Down =>
    show cell (transposeSq ((shiftLinesFrom 0
      (linesOf Direction.Down b)).1.map List.reverse)) (b.length - 1 - q) r = _
    rw [cell_transposeSq _ (by rw [List.length_map, hp1len]; omega)
        (by rw [List.length_map, hp1len]; exact hr),
      cell_eq, getRow_map List.reverse _ r (by rw [hp1len]; exact hr),
      getv_reverse _ (by rw [hrowp1len]; omega), hrowp1len,
      show b.length - 1 - (b.length - 1 - q) = q from by omega, hrowp1]

/-- Every action returned by `shift` is well-shaped (see `ActOK`). -/
theorem shift_acts (d : Direction) (b : List (List ℕ)) (hw : Wf b) :
    ∀ a ∈ (shift d b).2, ActOK b (shift d b).1 a := by
  intro a ha
  obtain ⟨r, a0, hrl, hm, rfl⟩ := (shift_snd_mem d b a).mp ha
  have hr : r < b.length := by rw [← length_linesOf d b]; exact hrl
  have hwl : Wf (linesOf d b) := wf_linesOf d b hw
  have hrowlen : (getRow (linesOf d b) r).length = b.length := by
    rw [row_length_of_wf hwl hrl, length_linesOf]
  obtain ⟨g1, g2, g3, g4, g5, g6⟩ := snl_acts _ r a0 hm
  rw [hrowlen] at g4
  have hdst : a0.dst.2 < b.length := by omega
  have hmd := snl_mdest _ r a0 hm
  have hsrcm := remapOf_src d b.length a0
  have hdstm := remapOf_dst d b.length a0
  rw [g1] at hsrcm
  rw [g2] at hdstm
  obtain ⟨hs1, hs2⟩ := srcMap_lt d hr g4
  obtain ⟨hd1, hd2⟩ := srcMap_lt d hr hdst
  refine ⟨?_, ?_, ?_, ?_, ?_, ?_, ?_⟩
  · rw [hsrcm]; exact hs1
  · rw [hsrcm]; exact hs2
  · rw [hdstm]; exact hd1
  · rw [hdstm]; exact hd2
  · rw [hsrcm, hdstm]
    exact (srcMap_ne d g4 hdst (by omega)).symm ∘ Eq.symm
  · rw [remapOf_value]; exact g5
  · rw [remapOf_kind]
    intro hk
    obtain ⟨hv, hnz⟩ := g6 hk
    have ho := getv_linesOf d b hw hr g4
    have hd := cell_shift_dst d b hw hr hdst
    rw [remapOf_value, hsrcm, hdstm]
    refine ⟨by rw [← ho]; exact hv, by rw [← ho]; exact hnz, ?_⟩
    rw [hd]
    exact hmd hk

/-! ### Characterisation of `is_shiftable` -/

/-- Some cell of the board is empty. -/
def HasEmpty (b : List (List ℕ)) : Prop :=
  ∃ r c, r < b.length ∧ c < b.length ∧ cell b r c = 0

/-- Some pair of vertically or horizontally adjacent cells holds equal
non-zero ranks. -/
def HasPair (b : List (List ℕ)) : Prop :=
  (∃ r c, r + 1 < b.length ∧ c < b.length ∧ cell b r c ≠ 0 ∧
    cell b r c = cell b (r + 1) c) ∨
  (∃ r c, r < b.length ∧ c + 1 < b.length ∧ cell b r c ≠ 0 ∧
    cell b r c = cell b r (c + 1))

theorem is_shiftable_iff (b : List (List ℕ)) (hn : 1 ≤ b.length) :
    is_shiftable b = true ↔ HasEmpty b ∨ HasPair b := by
  rw [is_shiftable]
  simp only [Bool.or_eq_true, List.any_eq_true, List.mem_range, beq_iff_eq]
  constructor
  · rintro (h00 | ⟨i, hi, j, hj, hcond⟩)
    · exact Or.inl ⟨0, 0, hn, hn, h00⟩
    · have hi1 : i + 1 < b.length := by omega
      rcases hcond with ((hA | hB) | hC) | hD
      · exact Or.inl ⟨i + 1, j, hi1, hj, hA⟩
      · by_cases h0 : cell b (i + 1) j = 0
        · exact Or.inl ⟨i + 1, j, hi1, hj, h0⟩
        · exact Or.inr (Or.inl ⟨i, j, hi1, hj, by rw [hB]; exact h0, hB⟩)
      · exact Or.inl ⟨j, i + 1, hj, hi1, hC⟩
      · by_cases h0 : cell b j (i + 1) = 0
        · exact Or.inl ⟨j, i + 1, hj, hi1, h0⟩
        · exact Or.inr (Or.inr ⟨j, i, hj, hi1, by rw [hD]; exact h0, hD⟩)
  · rintro (⟨r, c, hr, hc, h0⟩ | ⟨r, c, hr, hc, hnz, he⟩ | ⟨r, c, hr, hc, hnz, he⟩)
    · rcases Nat.eq_zero_or_pos r with hr0 | hr0
      · rcases Nat.eq_zero_or_pos c with hc0 | hc0
        · subst hr0; subst hc0; exact Or.inl h0
        · subst hr0
          refine Or.inr ⟨c - 1, by omega, 0, by omega, Or.inl (Or.inr ?_)⟩
          rw [show c - 1 + 1 = c from by omega]
          exact h0
      · refine Or.inr ⟨r - 1, by omega, c, by omega, Or.inl (Or.inl (Or.inl ?_))⟩
        rw [show r - 1 + 1 = r from by omega]
        exact h0
    · exact Or.inr ⟨r, by omega, c, hc, Or.inl (Or.inl (Or.inr he))⟩
    · exact Or.inr ⟨c, by omega, r, hr, Or.inr he⟩

/-- An unshiftable board (full, no equal neighbours) has every line of every
direction fully compacted with prefix length `b.length`. -/
theorem compact_of_unshiftable (d : Direction) (b : List (List ℕ)) (hw : Wf b)
    (hNE : ∀ r c, r < b.length → c < b.length → cell b r c ≠ 0)
    (hNV : ∀ r c, r + 1 < b.length → c < b.length → cell b r c ≠ cell b (r + 1) c)
    (hNH : ∀ r c, r < b.length → c + 1 < b.length → cell b r c ≠ cell b r (c + 1))
    (r : ℕ) (hr : r < b.length) :
    CompactLine (getRow (linesOf d b) r) b.length := by
  have hrl : r < (linesOf d b).length := by rw [length_linesOf]; exact hr
  have hlen : (getRow (linesOf d b) r).length = b.length := by
    rw [row_length_of_wf (wf_linesOf d b hw) hrl, length_linesOf]
  refine ⟨by omega, ?_, ?_, ?_⟩
  · intro i hi
    rw [getv_linesOf d b hw hr hi]
    obtain ⟨h1, h2⟩ := srcMap_lt d hr hi
    exact hNE _ _ h1 h2
  · intro i hik
    exact getv_of_le _ (by omega)
  · intro i hi1
    have hi : i < b.length := by omega
    rw [getv_linesOf d b hw hr hi, getv_linesOf d b hw hr hi1]
    cases d with
    | Left =>
      simp only [srcMap]
      exact hNH r i hr hi1
    | Right =>
      simp only [srcMap]
      have h := hNH r (b.length - 1 - (i + 1)) hr (by omega)
      rw [show b.length - 1 - (i + 1) + 1 = b.length - 1 - i from by omega] at h
      exact fun he => h he.symm
    | Up =>
      simp only [srcMap]
      exact hNV i r hi1 hr
    | Down =>
      simp only [srcMap]
      have h := hNV (b.length - 1 - (i + 1)) r (by omega) hr
      rw [show b.length - 1 - (i + 1) + 1 = b.length - 1 - i from by omega] at h
      exact fun he => h he.symm

/-- A line with no empty cell before a tile and no equal adjacent live pair
is compacted (for some prefix length). -/
theorem compactLine_of_props (l : List ℕ)
    (h1 : ∀ i, i + 1 < l.length → getv l i = 0 → getv l (i + 1) = 0)
    (h2 : ∀ i, i + 1 < l.length → getv l i ≠ 0 → getv l i ≠ getv l (i + 1)) :
    ∃ k, CompactLine l k := by
  have hP : ∃ m, getv l m = 0 ∨ l.length ≤ m := ⟨l.length, Or.inr le_rfl⟩
  have hk_le : Nat.find hP ≤ l.length := Nat.find_min' hP (Or.inr le_rfl)
  refine ⟨Nat.find hP, hk_le, ?_, ?_, ?_⟩
  · intro i hi
    have h := Nat.find_min hP hi
    push_neg at h
    exact h.1
  · intro i hik
    induction i, hik using Nat.le_induction with
    | base =>
      rcases Nat.find_spec hP with h | h
      · exact h
      · exact getv_of_le _ h
    | succ i hik ih =>
      by_cases hlt : i + 1 < l.length
      · exact h1 i hlt ih
      · exact getv_of_le _ (by omega)
  · intro i hi1
    have hilen : i + 1 < l.length := by omega
    have hnz : getv l i ≠ 0 := by
      have h := Nat.find_min hP (show i < Nat.find hP by omega)
      push_neg at h
      exact h.1
    exact h2 i hilen hnz

/-- Every line of direction `d` is fully compacted: empties only after all
tiles, and no two adjacent equal tiles (decidable on concrete boards). -/
def LinesCompact (d : Direction) (b : List (List ℕ)) : Prop :=
  ∀ r < b.length, ∀ i < (getRow (linesOf d b) r).length - 1,
    (getv (getRow (linesOf d b) r) i = 0 → getv (getRow (linesOf d b) r) (i + 1) = 0) ∧
    (getv (getRow (linesOf d b) r) i ≠ 0 →
      getv (getRow (linesOf d b) r) i ≠ getv (getRow (linesOf d b) r) (i + 1))

instance (d : Direction) (b : List (List ℕ)) : Decidable (LinesCompact d b) :=
  inferInstanceAs (Decidable (∀ r < b.length, ∀ i < (getRow (linesOf d b) r).length - 1,
    (getv (getRow (linesOf d b) r) i = 0 → getv (getRow (linesOf d b) r) (i + 1) = 0) ∧
    (getv (getRow (linesOf d b) r) i ≠ 0 →
      getv (getRow (linesOf d b) r) i ≠ getv (getRow (linesOf d b) r) (i + 1))))

theorem shift_noop_of_linesCompact (d : Direction) (b : List (List ℕ)) (hw : Wf b)
    (h : LinesCompact d b) : shift d b = (b, []) := by
  apply shift_noop d b hw
  intro r hr
  apply compactLine_of_props
  · intro i hi hzero
    exact ((h r hr i (by omega)).1) hzero
  · intro i hi hnzero
    exact ((h r hr i (by omega)).2) hnzero

/-! ### `spawn` machinery -/

theorem getv_mem (l : List ℕ) (k : ℕ) (hk : k < l.length) : getv l k ∈ l := by
  rw [getv_eq_getElem l k hk]
  exact List.getElem_mem hk

theorem flat_length (b : List (List ℕ)) (hw : Wf b) :
    (flat b).length = b.length * b.length := by
  rw [flat, List.length_flatten]
  have h : b.map List.length = List.replicate b.length b.length := by
    apply List.eq_replicate_iff.mpr
    refine ⟨by simp, ?_⟩
    intro x hx
    simp only [List.mem_map] at hx
    obtain ⟨r, hr, rfl⟩ := hx
    exact hw r hr
  rw [h, List.sum_replicate, smul_eq_mul]

theorem flatten_getv (n : ℕ) (hn : 0 < n) :
    ∀ (b : List (List ℕ)), (∀ r ∈ b, r.length = n) →
      ∀ i, i < b.length * n →
        getv b.flatten i = getv (getRow b (i / n)) (i % n) := by
  intro b
  induction b with
  | nil => intro _ i hi; simp at hi
  | cons x t ih =>
    intro hw i hi
    have hx : x.length = n := hw x (List.mem_cons_self x t)
    have hw2 : ∀ r ∈ t, r.length = n := fun r hr => hw r (List.mem_cons_of_mem x hr)
    rw [List.flatten_cons]
    by_cases h : i < n
    · rw [getv, List.getD_append _ _ _ _ (by rw [hx]; exact h)]
      rw [Nat.div_eq_of_lt h, Nat.mod_eq_of_lt h]
      rfl
    · obtain ⟨q, rfl⟩ : ∃ q, i = n + q := ⟨i - n, by omega⟩
      have e1 : getv (x ++ t.flatten) (n + q) = getv t.flatten q := by
        rw [getv, getv, List.getD_eq_getElem?_getD, List.getD_eq_getElem?_getD,
          List.getElem?_append, if_neg (by omega), hx, Nat.add_sub_cancel_left]
      rw [e1]
      have he : (t.length + 1) * n = t.length * n + n := by ring
      have hq : q < t.length * n := by
        simp only [List.length_cons] at hi
        omega
      rw [ih hw2 q hq]
      have hdiv : (n + q) / n = q / n + 1 := by
        rw [Nat.add_comm, Nat.add_div_right _ hn]
      have hmod : (n + q) % n = q % n := Nat.add_mod_left n q
      rw [hdiv, hmod, getRow_cons_succ]

theorem flat_getv (b : List (List ℕ)) (hw : Wf b) (hn : 0 < b.length)
    (i : ℕ) (hi : i < b.length * b.length) :
    getv (flat b) i = cell b (i / b.length) (i % b.length) :=
  flatten_getv b.length hn b hw i hi

theorem mem_emptyIdxs (b : List (List ℕ)) (i : ℕ) :
    i ∈ emptyIdxs b ↔ i < (flat b).length ∧ getv (flat b) i = 0 := by
  simp [emptyIdxs, List.mem_filter, List.mem_range, getv]

theorem emptyIdxs_eq_nil (b : List (List ℕ)) :
    emptyIdxs b = [] ↔ ∀ i, i < (flat b).length → getv (flat b) i ≠ 0 := by
  rw [emptyIdxs, List.filter_eq_nil_iff]
  simp [List.mem_range, getv]

theorem getRow_set_self (b : List (List ℕ)) {r : ℕ} (x : List ℕ) (h : r < b.length) :
    getRow (b.set r x) r = x := by
  simp [getRow, List.getD_eq_getElem?_getD, List.getElem?_set_self h]

theorem getRow_set_ne (b : List (List ℕ)) {r s : ℕ} (x : List ℕ) (h : r ≠ s) :
    getRow (b.set r x) s = getRow b s := by
  simp [getRow, List.getD_eq_getElem?_getD, List.getElem?_set_ne h]

theorem cell_setCell_self (b : List (List ℕ)) {r c : ℕ} (v : ℕ)
    (hr : r < b.length) (hc : c < (getRow b r).length) :
    cell (setCell b r c v) r c = v := by
  rw [setCell, cell_eq, getRow_set_self _ _ hr]
  exact getv_set_self _ _ hc

theorem cell_setCell_ne (b : List (List ℕ)) {r c x y : ℕ} (v : ℕ)
    (h : (x, y) ≠ (r, c)) : cell (setCell b r c v) x y = cell b x y := by
  by_cases hr : r = x
  · subst hr
    have hc : c ≠ y := by
      intro he
      exact h (by rw [he])
    rw [setCell, cell_eq, cell_eq]
    by_cases hrlen : r < b.length
    · rw [getRow_set_self _ _ hrlen]
      exact getv_set_ne _ _ hc
    · rw [List.set_eq_of_length_le (by omega)]
  · rw [setCell, cell_eq, cell_eq, getRow_set_ne _ _ hr]

/-! ## Claim theorems -/

/-- C1: `is_shiftable` returns `true` if and only if some cell is empty or
some pair of horizontally or vertically adjacent cells holds equal non-zero
ranks — equivalently, it returns `false` exactly when no cell is empty and
every adjacent pair holds unequal non-zero values.  (`Board<0>` is degenerate:
the source reads `self.0[0][0]` unconditionally, so a positive side length is
assumed.) -/
theorem C1_is_shiftable_iff (b : List (List ℕ)) (hw : Wf b) (hn : 1 ≤ b.length) :
    is_shiftable b = true ↔ HasEmpty b ∨ HasPair b :=
  is_shiftable_iff b hn

theorem C1_is_shiftable_iff_witness :
    is_shiftable [[1, 1], [2, 3]] = true ↔
      HasEmpty [[1, 1], [2, 3]] ∨ HasPair [[1, 1], [2, 3]] :=
  C1_is_shiftable_iff [[1, 1], [2, 3]] (by decide) (by decide)

/-- C2: a grid on which `is_shiftable` returns `false` is a fixed point of
`shift` in every direction, with an empty action list. -/
theorem C2_unshiftable_fixed (b : List (List ℕ)) (hw : Wf b)
    (h : is_shiftable b = false) (d : Direction) : shift d b = (b, []) := by
  rcases Nat.eq_zero_or_pos b.length with h0 | h0
  · have hb : b = [] := List.length_eq_zero.mp h0
    subst hb
    exact absurd h (by decide)
  · have hne : ¬ (HasEmpty b ∨ HasPair b) := by
      intro hcon
      have h2 := (is_shiftable_iff b h0).mpr hcon
      rw [h] at h2
      cases h2
    have hnE : ¬ HasEmpty b := fun hc => hne (Or.inl hc)
    have hnP : ¬ HasPair b := fun hc => hne (Or.inr hc)
    have hNE : ∀ r c, r < b.length → c < b.length → cell b r c ≠ 0 := by
      intro r c hr hc hcell
      exact hnE ⟨r, c, hr, hc, hcell⟩
    have hNV : ∀ r c, r + 1 < b.length → c < b.length →
        cell b r c ≠ cell b (r + 1) c := by
      intro r c hr hc he
      exact hnP (Or.inl ⟨r, c, hr, hc, hNE r c (by omega) hc, he⟩)
    have hNH : ∀ r c, r < b.length → c + 1 < b.length →
        cell b r c ≠ cell b r (c + 1) := by
      intro r c hr hc he
      exact hnP (Or.inr ⟨r, c, hr, hc, hNE r c hr (by omega), he⟩)
    exact shift_noop d b hw fun r hr =>
      ⟨b.length, compact_of_unshiftable d b hw hNE hNV hNH r hr⟩

theorem C2_unshiftable_fixed_witness :
    shift Direction.Up [[1, 2], [3, 4]] = ([[1, 2], [3, 4]], []) :=
  C2_unshiftable_fixed [[1, 2], [3, 4]] (by decide) (by decide) Direction.Up

/-- C3: for every grid and direction, the number of non-zero cells after
`shift` is at most the number before, and equals the number before minus the
number of `Merge` actions returned. -/
theorem C3_count_conservation (d : Direction) (b : List (List ℕ)) (hw : Wf b) :
    nzBoard (shift d b).1 ≤ nzBoard b ∧
      nzBoard (shift d b).1 + mergeCount (shift d b).2 = nzBoard b := by
  have h := shift_cnt d b hw
  exact ⟨by omega, h⟩

theorem C3_count_conservation_witness :
    nzBoard (shift Direction.Left [[1, 1], [0, 2]]).1 ≤ nzBoard [[1, 1], [0, 2]] ∧
      nzBoard (shift Direction.Left [[1, 1], [0, 2]]).1 +
        mergeCount (shift Direction.Left [[1, 1], [0, 2]]).2 = nzBoard [[1, 1], [0, 2]] :=
  C3_count_conservation Direction.Left [[1, 1], [0, 2]] (by decide)

/-- C4: shifting the documented 4×4 grid Up produces exactly the expected
resulting grid and the expected action list, columns in index order and
actions within a column in scan order (checking the transposed/mirrored
coordinate remapping of vertical shifts). -/
theorem C4_full_grid_up :
    shift Direction.Up [[1, 1, 1, 1], [0, 0, 0, 1], [0, 1, 2, 2], [2, 2, 2, 2]] =
      ([[1, 2, 1, 2], [2, 2, 3, 3], [0, 0, 0, 0], [0, 0, 0, 0]],
       [⟨TileActionKind.Move, 2, (3, 0), (1, 0)⟩,
        ⟨TileActionKind.Merge, 2, (2, 1), (0, 1)⟩,
        ⟨TileActionKind.Move, 2, (3, 1), (1, 1)⟩,
        ⟨TileActionKind.Move, 2, (2, 2), (1, 2)⟩,
        ⟨TileActionKind.Merge, 3, (3, 2), (1, 2)⟩,
        ⟨TileActionKind.Merge, 2, (1, 3), (0, 3)⟩,
        ⟨TileActionKind.Move, 2, (2, 3), (1, 3)⟩,
        ⟨TileActionKind.Merge, 3, (3, 3), (1, 3)⟩]) := by
  decide

/-- C5 (counterexample): on the grid `[[255,255],[1,2]]`, shifting Left merges
two tiles of rank 255 and emits value 255, not the claimed `255 + 1`: the
claim as stated fails at the `u8` saturation bound. -/
theorem C5_counterexample :
    ¬ (∀ a ∈ (shift Direction.Left [[255, 255], [1, 2]]).2,
        a.kind = TileActionKind.Merge →
          a.value = cell [[255, 255], [1, 2]] a.src.1 a.src.2 + 1) := by
  decide

/-- C5 (amended): every `Merge` action of `shift` carries the value
`satAdd r 1` — one rank above the common rank `r` of the two equal merged
tiles, saturating at 255 — where `r` is the merged source tile's original
rank, which is never zero (a merge never combines unequal or empty ranks). -/
theorem C5_merge_value (d : Direction) (b : List (List ℕ)) (hw : Wf b) :
    ∀ a ∈ (shift d b).2, a.kind = TileActionKind.Merge →
      a.value = satAdd (cell b a.src.1 a.src.2) 1 ∧ cell b a.src.1 a.src.2 ≠ 0 := by
  intro a ha hk
  obtain ⟨_, _, _, _, _, _, h7⟩ := shift_acts d b hw a ha
  obtain ⟨h1, h2, _⟩ := h7 hk
  exact ⟨h1, h2⟩

theorem C5_merge_value_witness :
    (2 : ℕ) = satAdd (cell [[1, 1], [2, 3]] 0 1) 1 ∧ cell [[1, 1], [2, 3]] 0 1 ≠ 0 :=
  C5_merge_value Direction.Left [[1, 1], [2, 3]] (by decide)
    ⟨TileActionKind.Merge, 2, (0, 1), (0, 0)⟩ (by decide) (by decide)

/-- C6: rank increment on merge saturates: whenever a merge consumes a tile of
the maximum `u8` rank 255, the emitted `Merge` value is 255 (capped, not
wrapped) and the destination cell of the output grid holds 255; the operation
is a total function (no panic). -/
theorem C6_saturating_merge (d : Direction) (b : List (List ℕ)) (hw : Wf b) :
    ∀ a ∈ (shift d b).2, a.kind = TileActionKind.Merge →
      cell b a.src.1 a.src.2 = 255 →
      a.value = 255 ∧ cell (shift d b).1 a.dst.1 a.dst.2 = 255 := by
  intro a ha hk h255
  obtain ⟨_, _, _, _, _, _, h7⟩ := shift_acts d b hw a ha
  obtain ⟨h1, _, h3⟩ := h7 hk
  have hv : a.value = 255 := by
    rw [h1, h255]
    decide
  exact ⟨hv, by rw [h3, hv]⟩

theorem C6_saturating_merge_witness :
    (shift Direction.Left [[255, 255], [3, 4]]).2 =
      [⟨TileActionKind.Merge, 255, (0, 1), (0, 0)⟩] ∧
    (∀ a ∈ (shift Direction.Left [[255, 255], [3, 4]]).2,
      a.kind = TileActionKind.Merge →
      cell [[255, 255], [3, 4]] a.src.1 a.src.2 = 255 →
      a.value = 255 ∧
        cell (shift Direction.Left [[255, 255], [3, 4]]).1 a.dst.1 a.dst.2 = 255) :=
  ⟨by decide, C6_saturating_merge Direction.Left [[255, 255], [3, 4]] (by decide)⟩

/-- C7 (counterexample): shifting `[[1,1,2],[0,0,0],[0,0,0]]` Left twice is
not idempotent: the first shift produces `[2,2,0]` in the top line, and the
second shift merges the freshly created equal pair, returning actions and
changing the grid. -/
theorem C7_counterexample :
    ¬ ((shift Direction.Left (shift Direction.Left [[1, 1, 2], [0, 0, 0], [0, 0, 0]]).1).2
          = [] ∧
       (shift Direction.Left (shift Direction.Left [[1, 1, 2], [0, 0, 0], [0, 0, 0]]).1).1
          = (shift Direction.Left [[1, 1, 2], [0, 0, 0], [0, 0, 0]]).1) := by
  decide

/-- C7 (amended): if after `shift d` every line of the grid in direction `d`
is fully compacted — no empty cell precedes a tile and no two adjacent tiles
are equal — then the second `shift d` returns an empty action list and leaves
the grid unchanged.  (The unconditional claim fails because a first shift can
create new equal adjacent pairs; see the counterexample.) -/
theorem C7_second_shift_noop (d : Direction) (b : List (List ℕ)) (hw : Wf b)
    (h : LinesCompact d (shift d b).1) :
    shift d (shift d b).1 = ((shift d b).1, []) :=
  shift_noop_of_linesCompact d (shift d b).1 (shift_wf d b hw).1 h

theorem C7_second_shift_noop_witness :
    shift Direction.Left (shift Direction.Left [[0, 1], [0, 0]]).1 =
      ((shift Direction.Left [[0, 1], [0, 0]]).1, []) :=
  C7_second_shift_noop Direction.Left [[0, 1], [0, 0]] (by decide) (by decide)

/-- C8: a `shift` that returns an empty action list leaves the grid exactly as
it was. -/
theorem C8_no_actions_no_change (d : Direction) (b : List (List ℕ)) (hw : Wf b)
    (h : (shift d b).2 = []) : (shift d b).1 = b :=
  shift_noact d b hw h

theorem C8_no_actions_no_change_witness :
    (shift Direction.Down [[1, 2], [3, 4]]).1 = [[1, 2], [3, 4]] :=
  C8_no_actions_no_change Direction.Down [[1, 2], [3, 4]] (by decide) (by decide)

/-- C9: `spawn` (its two random draws abstracted as parameters) returns `none`
iff no cell is empty, leaving the grid unchanged in that case; when it returns
`some (v, (row, col))`, the cell `(row, col)` was empty before the call and
holds `v` afterwards, `v` is 1 or 2, and every other cell is unchanged.  In
particular, on a grid with exactly one empty cell it always succeeds and fills
exactly that cell. -/
theorem C9_spawn_spec (b : List (List ℕ)) (choice : ℕ) (drawTwo : Bool)
    (hw : Wf b) (hn : 0 < b.length) :
    ((spawn b choice drawTwo).1 = none ↔
      ∀ r c, r < b.length → c < b.length → cell b r c ≠ 0) ∧
    ((spawn b choice drawTwo).1 = none → (spawn b choice drawTwo).2 = b) ∧
    (∀ v rc, (spawn b choice drawTwo).1 = some (v, rc) →
      rc.1 < b.length ∧ rc.2 < b.length ∧ cell b rc.1 rc.2 = 0 ∧
      (v = 1 ∨ v = 2) ∧ cell (spawn b choice drawTwo).2 rc.1 rc.2 = v ∧
      (∀ r c, (r, c) ≠ (rc.1, rc.2) →
        cell (spawn b choice drawTwo).2 r c = cell b r c)) := by
  have hflatlen : (flat b).length = b.length * b.length := flat_length b hw
  have hallzero : emptyIdxs b = [] ↔
      (∀ r c, r < b.length → c < b.length → cell b r c ≠ 0) := by
    rw [emptyIdxs_eq_nil]
    constructor
    · intro h r c hr hc hcell
      have hidx : r * b.length + c < (flat b).length := by
        rw [hflatlen]
        calc r * b.length + c < r * b.length + b.length := by omega
          _ = (r + 1) * b.length := by ring
          _ ≤ b.length * b.length := Nat.mul_le_mul_right _ (by omega)
      apply h (r * b.length + c) hidx
      rw [flat_getv b hw hn _ (by rw [← hflatlen]; exact hidx)]
      have hdiv : (r * b.length + c) / b.length = r := by
        rw [Nat.mul_comm r b.length, Nat.mul_add_div hn, Nat.div_eq_of_lt hc,
          Nat.add_zero]
      have hmod : (r * b.length + c) % b.length = c := by
        rw [Nat.mul_comm r b.length, Nat.mul_add_mod, Nat.mod_eq_of_lt hc]
      rw [hdiv, hmod]
      exact hcell
    · intro h i hi hzero
      rw [hflatlen] at hi
      have h1 : i / b.length < b.length := (Nat.div_lt_iff_lt_mul hn).mpr hi
      have h2 : i % b.length < b.length := Nat.mod_lt _ hn
      exact h _ _ h1 h2 (by rw [← flat_getv b hw hn i hi]; exact hzero)
  by_cases hes : emptyIdxs b = []
  · have hsp : spawn b choice drawTwo = (none, b) := by
      simp [spawn, hes]
    rw [hsp]
    refine ⟨⟨fun _ => hallzero.mp hes, fun _ => rfl⟩, fun _ => rfl, ?_⟩
    intro v rc hsome
    exact absurd hsome (by simp)
  · have hlen0 : 0 < (emptyIdxs b).length := List.length_pos.mpr hes
    have hmem : getv (emptyIdxs b) (choice % (emptyIdxs b).length) ∈ emptyIdxs b :=
      getv_mem _ _ (Nat.mod_lt _ hlen0)
    obtain ⟨hilt0, hizero⟩ := (mem_emptyIdxs b _).mp hmem
    rw [hflatlen] at hilt0
    have hicell : cell b
        (getv (emptyIdxs b) (choice % (emptyIdxs b).length) / b.length)
        (getv (emptyIdxs b) (choice % (emptyIdxs b).length) % b.length) = 0 := by
      rw [← flat_getv b hw hn _ hilt0]
      exact hizero
    have hrowb : getv (emptyIdxs b) (choice % (emptyIdxs b).length) / b.length
        < b.length := (Nat.div_lt_iff_lt_mul hn).mpr hilt0
    have hcolb : getv (emptyIdxs b) (choice % (emptyIdxs b).length) % b.length
        < b.length := Nat.mod_lt _ hn
    have hsp : spawn b choice drawTwo =
        (some (if drawTwo then 1 else 2,
            getv (emptyIdxs b) (choice % (emptyIdxs b).length) / b.length,
            getv (emptyIdxs b) (choice % (emptyIdxs b).length) % b.length),
          setCell b (getv (emptyIdxs b) (choice % (emptyIdxs b).length) / b.length)
            (getv (emptyIdxs b) (choice % (emptyIdxs b).length) % b.length)
            (if drawTwo then 1 else 2)) := by
      simp [spawn, hes]
    rw [hsp]
    refine ⟨⟨fun h => absurd h (by simp),
      fun hall => absurd (hallzero.mpr hall) hes⟩,
      fun h => absurd h (by simp), ?_⟩
    intro v rc hsome
    have hinj := Option.some.inj hsome
    obtain ⟨rr, cc⟩ := rc
    rw [Prod.mk.injEq, Prod.mk.injEq] at hinj
    obtain ⟨hv, hr1, hc1⟩ := hinj
    subst hv
    subst hr1
    subst hc1
    refine ⟨hrowb, hcolb, hicell, ?_, ?_, ?_⟩
    · cases drawTwo
      · right; rfl
      · left; rfl
    · exact cell_setCell_self b _ hrowb
        (by rw [row_length_of_wf hw hrowb]; exact hcolb)
    · intro r c hne
      exact cell_setCell_ne _ _ hne

theorem C9_spawn_spec_witness :
    ((spawn [[0, 1], [1, 1]] 0 true).1 = none ↔
      ∀ r c, r < ([[0, 1], [1, 1]] : List (List ℕ)).length →
        c < ([[0, 1], [1, 1]] : List (List ℕ)).length →
        cell [[0, 1], [1, 1]] r c ≠ 0) ∧
    ((spawn [[0, 1], [1, 1]] 0 true).1 = none →
      (spawn [[0, 1], [1, 1]] 0 true).2 = [[0, 1], [1, 1]]) ∧
    (∀ v rc, (spawn [[0, 1], [1, 1]] 0 true).1 = some (v, rc) →
      rc.1 < ([[0, 1], [1, 1]] : List (List ℕ)).length ∧
      rc.2 < ([[0, 1], [1, 1]] : List (List ℕ)).length ∧
      cell [[0, 1], [1, 1]] rc.1 rc.2 = 0 ∧
      (v = 1 ∨ v = 2) ∧ cell (spawn [[0, 1], [1, 1]] 0 true).2 rc.1 rc.2 = v ∧
      (∀ r c, (r, c) ≠ (rc.1, rc.2) →
        cell (spawn [[0, 1], [1, 1]] 0 true).2 r c = cell [[0, 1], [1, 1]] r c)) :=
  C9_spawn_spec [[0, 1], [1, 1]] 0 true (by decide) (by decide)

/-- C10: every action (`Move` or `Merge`) returned by `shift` has a
destination different from its source and a non-zero value: the engine never
emits a degenerate action onto a tile's own cell. -/
theorem C10_no_degenerate_action (d : Direction) (b : List (List ℕ)) (hw : Wf b) :
    ∀ a ∈ (shift d b).2, a.src ≠ a.dst ∧ a.value ≠ 0 := by
  intro a ha
  obtain ⟨_, _, _, _, h5, h6, _⟩ := shift_acts d b hw a ha
  exact ⟨h5, h6⟩

theorem C10_no_degenerate_action_witness :
    ((0, 1) : ℕ × ℕ) ≠ ((0, 0) : ℕ × ℕ) ∧ (1 : ℕ) ≠ 0 :=
  C10_no_degenerate_action Direction.Left [[0, 1], [0, 0]] (by decide)
    ⟨TileActionKind.Move, 1, (0, 1), (0, 0)⟩ (by decide)

end TFE
